import Mathlib

/-!
Shallow embedding of the `cache-control` Go library: the lexical byte
classifiers, the quoted-string sub-parser, the Cache-Control directive-value
tokenizer `parseCacheControlv`, and the two directive sinks
(`RequestCacheDirective`, `ResponseCacheDirective`) with the delta-seconds
validator.  Go strings are embedded as `List Nat` (their bytes); Go `int32`
fields as `Int`; Go `map[string]bool` sets as `Option (List (List Nat))`
(`none` = Go `nil` map, the list holds the keys in insertion order without
duplicates); fallible Go functions return `Except`.
-/

namespace CacheControl

/-- Bytes of an ASCII Lean string literal, used to write byte-list constants
and concrete test inputs readably. All uses are ASCII. -/
def bytesOf (s : String) : List Nat := s.data.map Char.toNat

/-! ## Lexical classifiers (lexical.go) -/

/-- Go `isWhiteSpace`: horizontal tab or space. -/
def isWhiteSpace (c : Nat) : Bool := c == 9 || c == 32

/-- Go `isSeparator`: the RFC 2616 separator set. -/
def isSeparator (c : Nat) : Bool :=
  c ∈ [40, 41, 60, 62, 64, 44, 59, 58, 92, 34, 47, 91, 93, 63, 61, 123, 125, 32, 9]

/-- Go `isCtl`. -/
def isCtl (c : Nat) : Bool := c ≤ 31 || c == 127

/-- Go `isChar`. -/
def isChar (c : Nat) : Bool := c ≤ 127

/-- Go `isAnyText`. -/
def isAnyText (c : Nat) : Bool := !isCtl c

/-- Go `isQdText`. -/
def isQdText (c : Nat) : Bool := isAnyText c && c != 34

/-- Go `isToken`. -/
def isToken (c : Nat) : Bool := isChar c && !isCtl c && !isSeparator c

/-! ## Header-name constants (headers.go) -/

def HeaderMaxAge : List Nat := bytesOf "max-age"
def HeaderNoCache : List Nat := bytesOf "no-cache"
def HeaderNoStore : List Nat := bytesOf "no-store"
def HeaderMaxStale : List Nat := bytesOf "max-stale"
def HeaderMinFresh : List Nat := bytesOf "min-fresh"
def HeaderNoTransform : List Nat := bytesOf "no-transform"
def HeaderOnlyIfCached : List Nat := bytesOf "only-if-cached"
def HeaderPublic : List Nat := bytesOf "public"
def HeaderPrivate : List Nat := bytesOf "private"
def HeaderSMaxAge : List Nat := bytesOf "s-maxage"
def HeaderImmutable : List Nat := bytesOf "immutable"
def HeaderStaleIfError : List Nat := bytesOf "stale-if-error"
def HeaderMustRevalidate : List Nat := bytesOf "must-revalidate"
def HeaderProxyRevalidate : List Nat := bytesOf "proxy-revalidate"
def HeaderStaleWhileRevalidate : List Nat := bytesOf "stale-while-revalidate"

/-! ## Errors -/

/-- The error values of directive.go and parse.go. `wrapped e` models
`fmt.Errorf("%w: %v", e, err)`, the delta-seconds validation failure wrapped
with the owning directive's error. -/
inductive CCError where
  | maxAgeDeltaSeconds
  | sMaxAgeDeltaSeconds
  | maxStaleDeltaSeconds
  | minFreshDeltaSeconds
  | staleIfErrorDeltaSeconds
  | staleWhileRevalidateDeltaSeconds
  | publicDirectiveValue
  | noCacheDirectiveValue
  | noStoreDirectiveValue
  | immutableDirectiveValue
  | noTransformDirectiveValue
  | onlyIfCachedDirectiveValue
  | mustRevalidateDirectiveValue
  | proxyRevalidateDirectiveValue
  | missingClosingQuote
  | wrapped (base : CCError)
  deriving Repr, DecidableEq

/-- Decidable equality of `Except` results, used to evaluate the parsers on
concrete inputs inside proofs. -/
instance exceptDecEq {ε α : Type} [DecidableEq ε] [DecidableEq α] :
    DecidableEq (Except ε α) := fun a b =>
  match a, b with
  | .error e1, .error e2 =>
    if h : e1 = e2 then .isTrue (by rw [h]) else .isFalse (by intro hh; cases hh; exact h rfl)
  | .error _, .ok _ => .isFalse (by intro hh; cases hh)
  | .ok _, .error _ => .isFalse (by intro hh; cases hh)
  | .ok v1, .ok v2 =>
    if h : v1 = v2 then .isTrue (by rw [h]) else .isFalse (by intro hh; cases hh; exact h rfl)

/-! ## Quoted-string sub-parser (parse.go `parseQuotedString`, `unquotePair`) -/

/-- Go `unquotePair`: the fixed backslash-escape table; anything else maps
to `?` (63). -/
def unquotePair (b : Nat) : Nat :=
  if b = 97 then 7
  else if b = 98 then 8
  else if b = 102 then 12
  else if b = 110 then 10
  else if b = 114 then 13
  else if b = 116 then 9
  else if b = 118 then 11
  else if b = 92 then 92
  else if b = 39 then 39
  else if b = 34 then 34
  else 63

/-- The scan of `parseQuotedString` after the opening quote: returns the
number of bytes consumed (closing quote included) and the unescaped content,
or `none` when the closing quote is missing or a backslash escape is
truncated (Go returns `(-1, "")` there). -/
def pqsBody : List Nat → Option (Nat × List Nat)
  | [] => none
  | b :: rest =>
    if b = 34 then some (1, [])
    else if b = 92 then
      match rest with
      | [] => none
      | c :: rest2 => (pqsBody rest2).map (fun p => (p.1 + 2, unquotePair c :: p.2))
    else (pqsBody rest).map (fun p => (p.1 + 1, (if isQdText b then b else 63) :: p.2))

/-- Go `parseQuotedString`: `none` models the `(-1, "")` failure return,
`some (eaten, value)` the success return. (In the program it is only called
on a nonempty suffix whose first byte is `"`, so the `raw[0]` access is in
bounds.) -/
def parseQuotedString (raw : List Nat) : Option (Nat × List Nat) :=
  match raw with
  | [] => none
  | b :: rest =>
    if b = 34 then (pqsBody rest).map (fun p => (p.1 + 1, p.2)) else none

/-! ## Tokenizer helpers (parse.go) -/

/-- ASCII-range lowering of one byte, as Go `strings.ToLower` does on ASCII. -/
def asciiLower (c : Nat) : Nat := if 65 ≤ c ∧ c ≤ 90 then c + 32 else c

/-- Go `strings.ToLower` restricted to the byte slices this tokenizer
produces: the first byte is arbitrary, every later byte is a token byte
(hence ASCII). On an all-ASCII slice Go lowercases byte-wise; a non-ASCII
first byte followed by ASCII is an invalid UTF-8 sequence, which Go's rune
mapping replaces by U+FFFD (bytes ef bf bd) before lowercasing the rest. -/
def goToLower : List Nat → List Nat
  | [] => []
  | b :: rest =>
    (if b < 128 then [asciiLower b] else [239, 191, 189]) ++ rest.map asciiLower

/-- Go `tokenRequireExtensionFields`. -/
def tokenRequireExtensionFields (token : List Nat) : Bool :=
  token == HeaderNoCache || token == HeaderPrivate

/-- The terminator test of the unquoted-value scan loop:
`isWhiteSpace(val[valueEnd]) || (!requireExtensionField && val[valueEnd] == ',')`. -/
def isValueEnd (req : Bool) (c : Nat) : Bool :=
  isWhiteSpace c || (!req && c == 44)

/-- The unquoted-value scan: everything up to the first terminator byte. -/
def scanUnquotedValue (req : Bool) (v : List Nat) : List Nat :=
  v.takeWhile (fun c => !(isValueEnd req c))

/-- `if value != "" && value[len(value)-1] == ',' { value = value[:len(value)-1] }`. -/
def stripTrailingComma (v : List Nat) : List Nat :=
  if v ≠ [] ∧ v.getLast? = some 44 then v.dropLast else v

/-! ## Delta-seconds validator (directive.go `validateDeltaSeconds`) -/

/-- The two error classes of `strconv.ParseUint`. -/
inductive NumErr where
  | syntaxErr
  | rangeErr
  deriving Repr, DecidableEq

/-- The accumulation loop of Go `strconv.ParseUint(s, 10, 32)`: scans left to
right, rejects a non-digit byte with a syntax error, and reports a range
error as soon as the accumulator would exceed `1<<32 - 1` (the cutoff check
`n >= cutoff` with `cutoff = maxVal/10 + 1 = 429496730`, then the post-add
check `n1 > maxVal`). -/
def parseUintLoop : List Nat → Nat → Except NumErr Nat
  | [], n => .ok n
  | c :: cs, n =>
    if 48 ≤ c ∧ c ≤ 57 then
      if 429496730 ≤ n then .error .rangeErr
      else
        let n1 := n * 10 + (c - 48)
        if 4294967295 < n1 then .error .rangeErr
        else parseUintLoop cs n1
    else .error .syntaxErr

/-- Go `strconv.ParseUint(s, 10, 32)` on a byte string: empty input is a
syntax error, otherwise the digit loop runs. -/
def parseUint10_32 (s : List Nat) : Except NumErr Nat :=
  if s = [] then .error .syntaxErr else parseUintLoop s 0

/-- Go `validateDeltaSeconds`: a range error from `ParseUint` saturates to
`math.MaxInt32`; any other parse error propagates; a parsed value above
`math.MaxInt32` saturates. -/
def validateDeltaSeconds (delta : List Nat) : Except NumErr Int :=
  match parseUint10_32 delta with
  | .error .rangeErr => .ok 2147483647
  | .error .syntaxErr => .error .syntaxErr
  | .ok v => if 2147483647 < v then .ok 2147483647 else .ok (v : Int)

/-! ## Field-name canonicalization (net/textproto, net/http helpers used by
the response sink) -/

/-- Go `net/textproto` `isASCIISpace`. -/
def isASCIISpace (b : Nat) : Bool := b == 32 || b == 9 || b == 10 || b == 13

/-- Go `net/textproto` `TrimString`: drop leading and trailing ASCII space. -/
def trimString (s : List Nat) : List Nat :=
  ((s.dropWhile isASCIISpace).reverse.dropWhile isASCIISpace).reverse

/-- Go `net/textproto` `validHeaderFieldByte`: the RFC 7230 token bytes. -/
def validHeaderFieldByte (c : Nat) : Bool :=
  (48 ≤ c ∧ c ≤ 57) || (65 ≤ c ∧ c ≤ 90) || (97 ≤ c ∧ c ≤ 122) ||
    c ∈ [33, 35, 36, 37, 38, 39, 42, 43, 45, 46, 94, 95, 96, 124, 126]

/-- The rewriting pass of Go `textproto.canonicalMIMEHeaderKey`: uppercase a
letter at the start or after a hyphen, lowercase every other letter. -/
def canonMap : List Nat → Bool → List Nat
  | [], _ => []
  | c :: rest, upper =>
    let c2 :=
      if upper ∧ 97 ≤ c ∧ c ≤ 122 then c - 32
      else if ¬upper ∧ 65 ≤ c ∧ c ≤ 90 then c + 32
      else c
    c2 :: canonMap rest (c2 == 45)

/-- Go `http.CanonicalHeaderKey` (`textproto.CanonicalMIMEHeaderKey`): if any
byte is not a valid header-field byte the key is returned unchanged,
otherwise it is title-cased per hyphen segment. -/
def canonicalHeaderKey (s : List Nat) : List Nat :=
  if s.all validHeaderFieldByte then canonMap s true else s

/-- Go `strings.Split(val, ",")`: `Split("", ",")` is `[""]`. -/
def splitComma : List Nat → List (List Nat)
  | [] => [[]]
  | b :: rest =>
    if b = 44 then [] :: splitComma rest
    else
      match splitComma rest with
      | p :: ps => (b :: p) :: ps
      | [] => [[b]]

/-- Insertion of a key into the list model of a Go `map[string]bool` used as
a set: `m[k] = true` adds the key once. -/
def insertKey (m : List (List Nat)) (k : List Nat) : List (List Nat) :=
  if k ∈ m then m else m ++ [k]

/-- The body of the `for _, v := range strings.Split(val, ",")` loops of the
response sink: trim, canonicalize, insert each piece. -/
def insertFieldNames (m : List (List Nat)) (val : List Nat) : List (List Nat) :=
  (splitComma val).foldl (fun acc v => insertKey acc (canonicalHeaderKey (trimString v))) m

/-! ## Request directive sink (directive.go) -/

/-- Go `RequestCacheDirective`. `Int` embeds `int32`; the parse-result
invariant (claim C7) keeps the three age fields inside the `int32` range. -/
structure RequestCacheDirective where
  MaxAge : Int
  MaxStale : Int
  MinFresh : Int
  NoCache : Bool
  NoStore : Bool
  OnlyIfCached : Bool
  Extensions : List (List Nat)
  deriving Repr, DecidableEq

/-- The record `NewRequestCacheDirective` starts from:
`&RequestCacheDirective{MaxAge: -1, MaxStale: -1, MinFresh: -1}`. -/
def requestInit : RequestCacheDirective :=
  { MaxAge := -1, MaxStale := -1, MinFresh := -1,
    NoCache := false, NoStore := false, OnlyIfCached := false, Extensions := [] }

/-- Go `(*RequestCacheDirective).setToken`. -/
def RequestCacheDirective.setToken (d : RequestCacheDirective) (token : List Nat) :
    Except CCError RequestCacheDirective :=
  if token = HeaderMaxAge then .error .maxAgeDeltaSeconds
  else if token = HeaderMaxStale then .error .maxStaleDeltaSeconds
  else if token = HeaderMinFresh then .error .minFreshDeltaSeconds
  else if token = HeaderNoCache then .ok { d with NoCache := true }
  else if token = HeaderNoStore then .ok { d with NoStore := true }
  else if token = HeaderOnlyIfCached then .ok { d with OnlyIfCached := true }
  else .ok { d with Extensions := d.Extensions ++ [token] }

/-- Go `(*RequestCacheDirective).setPair`. -/
def RequestCacheDirective.setPair (d : RequestCacheDirective) (key val : List Nat) :
    Except CCError RequestCacheDirective :=
  if key = HeaderNoCache then .error .noCacheDirectiveValue
  else if key = HeaderNoStore then .error .noStoreDirectiveValue
  else if key = HeaderOnlyIfCached then .error .onlyIfCachedDirectiveValue
  else if key = HeaderMaxAge then
    match validateDeltaSeconds val with
    | .error _ => .error (.wrapped .maxAgeDeltaSeconds)
    | .ok deltaSec => .ok { d with MaxAge := deltaSec }
  else if key = HeaderMaxStale then
    match validateDeltaSeconds val with
    | .error _ => .error (.wrapped .maxStaleDeltaSeconds)
    | .ok deltaSec => .ok { d with MaxStale := deltaSec }
  else if key = HeaderMinFresh then
    match validateDeltaSeconds val with
    | .error _ => .error (.wrapped .minFreshDeltaSeconds)
    | .ok deltaSec => .ok { d with MinFresh := deltaSec }
  else .ok { d with Extensions := d.Extensions ++ [key ++ [61] ++ val] }

/-! ## Response directive sink (directive.go) -/

/-- Go `ResponseCacheDirective`. The two `map[string]bool` fields are
embedded as `Option (List (List Nat))`: `none` is the `nil` map, `some m`
holds the keys in insertion order without duplicates. -/
structure ResponseCacheDirective where
  MustRevalidate : Bool
  NoCache : Option (List (List Nat))
  NoCachePresent : Bool
  NoStore : Bool
  NoTransform : Bool
  Public : Bool
  Private : Option (List (List Nat))
  PrivatePresent : Bool
  ProxyRevalidate : Bool
  MaxAge : Int
  SMaxAge : Int
  Immutable : Bool
  StaleIfError : Int
  StaleWhileRevalidate : Int
  Extensions : List (List Nat)
  deriving Repr, DecidableEq

/-- The zero value `&ResponseCacheDirective{}`. -/
def responseInit : ResponseCacheDirective :=
  { MustRevalidate := false, NoCache := none, NoCachePresent := false,
    NoStore := false, NoTransform := false, Public := false,
    Private := none, PrivatePresent := false, ProxyRevalidate := false,
    MaxAge := 0, SMaxAge := 0, Immutable := false,
    StaleIfError := 0, StaleWhileRevalidate := 0, Extensions := [] }

/-- Go `(*ResponseCacheDirective).setToken`. -/
def ResponseCacheDirective.setToken (d : ResponseCacheDirective) (token : List Nat) :
    Except CCError ResponseCacheDirective :=
  if token = HeaderMaxAge then .error .maxAgeDeltaSeconds
  else if token = HeaderSMaxAge then .error .sMaxAgeDeltaSeconds
  else if token = HeaderStaleIfError then .error .staleIfErrorDeltaSeconds
  else if token = HeaderStaleWhileRevalidate then .error .staleWhileRevalidateDeltaSeconds
  else if token = HeaderPublic then .ok { d with Public := true }
  else if token = HeaderNoStore then .ok { d with NoStore := true }
  else if token = HeaderImmutable then .ok { d with Immutable := true }
  else if token = HeaderNoTransform then .ok { d with NoTransform := true }
  else if token = HeaderPrivate then .ok { d with PrivatePresent := true }
  else if token = HeaderMustRevalidate then .ok { d with MustRevalidate := true }
  else if token = HeaderNoCache then .ok { d with NoCachePresent := true }
  else if token = HeaderProxyRevalidate then .ok { d with ProxyRevalidate := true }
  else .ok { d with Extensions := d.Extensions ++ [token] }

/-- Go `(*ResponseCacheDirective).setPair`. -/
def ResponseCacheDirective.setPair (d : ResponseCacheDirective) (key val : List Nat) :
    Except CCError ResponseCacheDirective :=
  if key = HeaderMustRevalidate then .error .mustRevalidateDirectiveValue
  else if key = HeaderNoStore then .error .noStoreDirectiveValue
  else if key = HeaderNoTransform then .error .noTransformDirectiveValue
  else if key = HeaderPublic then .error .publicDirectiveValue
  else if key = HeaderProxyRevalidate then .error .proxyRevalidateDirectiveValue
  else if key = HeaderImmutable then .error .immutableDirectiveValue
  else if key = HeaderNoCache then
    .ok { d with NoCachePresent := true,
                 NoCache := some (insertFieldNames (d.NoCache.getD []) val) }
  else if key = HeaderPrivate then
    .ok { d with PrivatePresent := true,
                 Private := some (insertFieldNames (d.Private.getD []) val) }
  else if key = HeaderMaxAge then
    match validateDeltaSeconds val with
    | .error _ => .error (.wrapped .maxAgeDeltaSeconds)
    | .ok deltaSec => .ok { d with MaxAge := deltaSec }
  else if key = HeaderSMaxAge then
    match validateDeltaSeconds val with
    | .error _ => .error (.wrapped .sMaxAgeDeltaSeconds)
    | .ok deltaSec => .ok { d with SMaxAge := deltaSec }
  else if key = HeaderStaleIfError then
    match validateDeltaSeconds val with
    | .error _ => .error (.wrapped .staleIfErrorDeltaSeconds)
    | .ok deltaSec => .ok { d with StaleIfError := deltaSec }
  else if key = HeaderStaleWhileRevalidate then
    match validateDeltaSeconds val with
    | .error _ => .error (.wrapped .staleWhileRevalidateDeltaSeconds)
    | .ok deltaSec => .ok { d with StaleWhileRevalidate := deltaSec }
  else .ok { d with Extensions := d.Extensions ++ [key ++ [61] ++ val] }

/-! ## The tokenizer (parse.go `parseCacheControlv`) -/

/-- The Go `directive` interface: the two sink operations. -/
structure Sink (σ : Type) where
  setToken : σ → List Nat → Except CCError σ
  setPair : σ → List Nat → List Nat → Except CCError σ

/-- The scan loop of Go `parseCacheControlv`, recursion on the unscanned
suffix with explicit fuel (`none` = fuel ran out; the loop consumes at least
one byte per iteration, so fuel `length + 1` always suffices — proved as
part of claim C8). Each iteration mirrors one trip through the Go `for`
loop: skip a whitespace or comma byte; otherwise take the byte at the scan
position plus the maximal following run of token bytes as the name
(`tokenEnd := index + 1` then extension while `isToken`), lowercase it, and
dispatch on whether an `=` with at least one more byte follows. -/
def parseCCLoop {σ : Type} (sink : Sink σ) : Nat → σ → List Nat → Option (Except CCError σ)
  | 0, _, _ => none
  | _ + 1, st, [] => some (.ok st)
  | fuel + 1, st, b :: rest =>
    if isWhiteSpace b || b == 44 then parseCCLoop sink fuel st rest
    else
      let tokRun := rest.takeWhile isToken
      let afterTok := rest.dropWhile isToken
      let token := goToLower (b :: tokRun)
      let req := tokenRequireExtensionFields token
      match afterTok with
      | 61 :: v1 :: vrest =>
        if v1 = 34 then
          match parseQuotedString (v1 :: vrest) with
          | none => some (.error .missingClosingQuote)
          | some (eaten, value) =>
            match sink.setPair st token value with
            | .error e => some (.error e)
            | .ok st2 => parseCCLoop sink fuel st2 ((v1 :: vrest).drop eaten)
        else
          let captured := scanUnquotedValue req (v1 :: vrest)
          match sink.setPair st token (stripTrailingComma captured) with
          | .error e => some (.error e)
          | .ok st2 => parseCCLoop sink fuel st2 ((v1 :: vrest).drop captured.length)
      | _ =>
        if token = [44] then parseCCLoop sink fuel st afterTok
        else
          match sink.setToken st token with
          | .error e => some (.error e)
          | .ok st2 => parseCCLoop sink fuel st2 afterTok

/-- The request sink as a `Sink`. -/
def requestSink : Sink RequestCacheDirective :=
  ⟨RequestCacheDirective.setToken, RequestCacheDirective.setPair⟩

/-- The response sink as a `Sink`. -/
def responseSink : Sink ResponseCacheDirective :=
  ⟨ResponseCacheDirective.setToken, ResponseCacheDirective.setPair⟩

/-- Go `NewRequestCacheDirective`: run the tokenizer over the value with the
request sink, from the `-1`-sentinel initial record. The Go function returns
`(nil, err)` on error and `(directive, nil)` on success, so the `Except`
carries either the error or the record, never both. The outer `Option` is
the fuel artifact discharged by claim C8. -/
def NewRequestCacheDirective (l : List Nat) : Option (Except CCError RequestCacheDirective) :=
  parseCCLoop requestSink (l.length + 1) requestInit l

/-- Go `NewResponseCacheDirective`. -/
def NewResponseCacheDirective (l : List Nat) : Option (Except CCError ResponseCacheDirective) :=
  parseCCLoop responseSink (l.length + 1) responseInit l

/-! ## Observation sink, used to state what the tokenizer delivers -/

/-- One delivery from the tokenizer to a sink. -/
inductive SinkEvent where
  | tok (name : List Nat)
  | pair (name val : List Nat)
  deriving Repr, DecidableEq

/-- The directive name of a delivery. -/
def SinkEvent.name : SinkEvent → List Nat
  | .tok n => n
  | .pair n _ => n

/-- A sink that records every delivery and never fails, used to state claims
about the tokenizer independently of the two concrete sinks. -/
def recordSink : Sink (List SinkEvent) :=
  ⟨fun st n => .ok (st ++ [.tok n]), fun st n v => .ok (st ++ [.pair n v])⟩

/-! ## Spec-side helpers used only in claim statements -/

/-- Numeric value of a decimal digit string. -/
def decValue (l : List Nat) : Nat := l.foldl (fun a c => a * 10 + (c - 48)) 0

/-- The failure condition of the quoted-string scan, stated as in the spec:
after the opening quote, the input ends before an unescaped closing quote,
or ends in a truncated backslash escape. -/
def quotedBodyBad : List Nat → Bool
  | [] => true
  | c :: rest =>
    if c = 34 then false
    else if c = 92 then
      match rest with
      | [] => true
      | _ :: rest2 => quotedBodyBad rest2
    else quotedBodyBad rest

/-- Decimal accumulation from a starting accumulator. -/
def foldDec (n : Nat) (l : List Nat) : Nat := l.foldl (fun a c => a * 10 + (c - 48)) n

/-- A name is token-shaped when it is the lowercasing of some byte followed
by a run of token bytes. -/
def tokenShaped (n : List Nat) : Prop :=
  ∃ b run, (∀ c ∈ run, isToken c = true) ∧ n = goToLower (b :: run)

/-- The C7 invariant: each age-like request field is the absent sentinel -1
or a value in [0, 2147483647]. -/
def requestAgeInv (d : RequestCacheDirective) : Prop :=
  (d.MaxAge = -1 ∨ (0 ≤ d.MaxAge ∧ d.MaxAge ≤ 2147483647)) ∧
  (d.MaxStale = -1 ∨ (0 ≤ d.MaxStale ∧ d.MaxStale ≤ 2147483647)) ∧
  (d.MinFresh = -1 ∨ (0 ≤ d.MinFresh ∧ d.MinFresh ≤ 2147483647))

/-! ## Helper lemmas -/

/-- Unfolding of `pqsBody` on a cons cell. -/
theorem pqsBody_cons (b : Nat) (rest : List Nat) :
    pqsBody (b :: rest) =
      if b = 34 then some (1, [])
      else if b = 92 then
        match rest with
        | [] => none
        | c :: rest2 => (pqsBody rest2).map (fun p => (p.1 + 2, unquotePair c :: p.2))
      else (pqsBody rest).map (fun p => (p.1 + 1, (if isQdText b then b else 63) :: p.2)) := by
  cases rest <;> rfl

/-- The `Sink` projections of the two concrete sinks. -/
theorem requestSink_setToken (d : RequestCacheDirective) (t : List Nat) :
    requestSink.setToken d t = RequestCacheDirective.setToken d t := rfl

theorem requestSink_setPair (d : RequestCacheDirective) (k v : List Nat) :
    requestSink.setPair d k v = RequestCacheDirective.setPair d k v := rfl

theorem responseSink_setToken (d : ResponseCacheDirective) (t : List Nat) :
    responseSink.setToken d t = ResponseCacheDirective.setToken d t := rfl

theorem responseSink_setPair (d : ResponseCacheDirective) (k v : List Nat) :
    responseSink.setPair d k v = ResponseCacheDirective.setPair d k v := rfl


theorem parseCCLoop_nil {σ : Type} (sink : Sink σ) {f : Nat} (st : σ) (h : 0 < f) :
    parseCCLoop sink f st [] = some (.ok st) := by
  cases f with
  | zero => omega
  | succ n => rfl

/-- Splitting `takeWhile`/`dropWhile` at an append whose left part satisfies
the predicate and whose right part starts with a byte that does not. -/
theorem takeWhile_append_all {p : Nat → Bool} {nm : List Nat} (after : List Nat)
    (h1 : ∀ c ∈ nm, p c = true) (h2 : ∀ c, after.head? = some c → p c = false) :
    (nm ++ after).takeWhile p = nm ∧ (nm ++ after).dropWhile p = after := by
  induction nm with
  | nil =>
    cases after with
    | nil => simp
    | cons a t =>
      have := h2 a rfl
      simp [List.takeWhile_cons, List.dropWhile_cons, this]
  | cons a t ih =>
    have ha : p a = true := h1 a (by simp)
    have iht := ih (fun c hc => h1 c (by simp [hc]))
    simp [List.takeWhile_cons, List.dropWhile_cons, ha, iht.1, iht.2]

theorem dropWhile_length_le {p : Nat → Bool} (l : List Nat) :
    (l.dropWhile p).length ≤ l.length :=
  (List.dropWhile_suffix p).length_le

/-- The tokenizer's fuel of `length + 1` always suffices: every loop
iteration consumes at least one byte of the input. -/
theorem parseCCLoop_isSome {σ : Type} (sink : Sink σ) :
    ∀ (fuel : Nat) (st : σ) (l : List Nat), l.length < fuel →
      (parseCCLoop sink fuel st l).isSome := by
  intro fuel
  induction fuel with
  | zero => intro st l h; omega
  | succ n ih =>
    intro st l h
    match l with
    | [] => simp [parseCCLoop]
    | b :: rest =>
      have hrest : rest.length < n := by simp at h; omega
      have hdrop : (rest.dropWhile isToken).length ≤ rest.length :=
        dropWhile_length_le rest
      rw [parseCCLoop]
      split
      · exact ih st rest hrest
      · dsimp only
        split
        · next v1 vrest heq =>
          have hlen : vrest.length + 2 ≤ rest.length := by
            have h2 := congrArg List.length heq
            simp at h2
            have := dropWhile_length_le (p := isToken) rest
            omega
          split
          · split
            · simp
            · split
              · simp
              · apply ih
                simp [List.length_drop]
                omega
          · split
            · simp
            · apply ih
              simp [List.length_drop]
              omega
        · split
          · exact ih st _ (by omega)
          · split
            · simp
            · exact ih _ _ (by omega)

theorem foldDec_nil (n : Nat) : foldDec n [] = n := rfl

theorem foldDec_cons (n c : Nat) (l : List Nat) :
    foldDec n (c :: l) = foldDec (n * 10 + (c - 48)) l := rfl

theorem decValue_eq_foldDec (l : List Nat) : decValue l = foldDec 0 l := rfl

theorem foldDec_le (l : List Nat) : ∀ n : Nat, n ≤ foldDec n l := by
  induction l with
  | nil => intro n; simp [foldDec_nil]
  | cons c t ih =>
    intro n
    rw [foldDec_cons]
    exact le_trans (by omega) (ih (n * 10 + (c - 48)))

/-- The `ParseUint` accumulation loop on all-digit input, from an
in-range accumulator: it returns the full decimal value when that fits the
unsigned 32-bit range and a range error otherwise. -/
theorem parseUintLoop_digits (l : List Nat) : ∀ n : Nat,
    (∀ c ∈ l, 48 ≤ c ∧ c ≤ 57) → n ≤ 4294967295 →
    parseUintLoop l n =
      if foldDec n l ≤ 4294967295 then .ok (foldDec n l) else .error .rangeErr := by
  induction l with
  | nil =>
    intro n _ hn
    simp [parseUintLoop, foldDec_nil, hn]
  | cons c t ih =>
    intro n hd hn
    have hc : 48 ≤ c ∧ c ≤ 57 := hd c (by simp)
    rw [parseUintLoop, if_pos hc, foldDec_cons]
    by_cases hcut : 429496730 ≤ n
    · have hbig : 4294967295 < foldDec (n * 10 + (c - 48)) t :=
        lt_of_lt_of_le (by omega) (foldDec_le t _)
      rw [if_pos hcut, if_neg (by omega)]
    · rw [if_neg hcut]
      by_cases hover : 4294967295 < n * 10 + (c - 48)
      · have hbig : 4294967295 < foldDec (n * 10 + (c - 48)) t :=
          lt_of_lt_of_le hover (foldDec_le t _)
        simp only [if_pos hover, if_neg (by omega : ¬foldDec (n * 10 + (c - 48)) t ≤ 4294967295)]
      · simp only [if_neg hover]
        exact ih _ (fun x hx => hd x (by simp [hx])) (by omega)

/-- `validateDeltaSeconds` on a nonempty digit string: the decimal value,
saturated at `math.MaxInt32`. -/
theorem validateDeltaSeconds_digits (l : List Nat) (h1 : l ≠ [])
    (h2 : ∀ c ∈ l, 48 ≤ c ∧ c ≤ 57) :
    validateDeltaSeconds l = .ok ((min (decValue l) 2147483647 : Nat) : Int) := by
  have hloop := parseUintLoop_digits l 0 h2 (by omega)
  rw [validateDeltaSeconds, parseUint10_32, if_neg h1, hloop, decValue_eq_foldDec]
  by_cases hfit : foldDec 0 l ≤ 4294967295
  · rw [if_pos hfit]
    by_cases hbig : 2147483647 < foldDec 0 l
    · rw [Nat.min_eq_right (by omega)]
      simp only [if_pos hbig]
      norm_num
    · rw [Nat.min_eq_left (by omega)]
      simp only [if_neg hbig]
  · rw [if_neg hfit, Nat.min_eq_right (by omega)]
    norm_num

/-- Every successful `validateDeltaSeconds` result lies in `[0, MaxInt32]`. -/
theorem validateDeltaSeconds_ok_range {l : List Nat} {x : Int}
    (h : validateDeltaSeconds l = .ok x) : 0 ≤ x ∧ x ≤ 2147483647 := by
  rw [validateDeltaSeconds] at h
  rcases hp : parseUint10_32 l with e | v
  · rcases e with _ | _ <;> rw [hp] at h
    · exact absurd h (by simp)
    · simp at h
      omega
  · rw [hp] at h
    have h2 : (if 2147483647 < v then (Except.ok 2147483647 : Except NumErr Int)
        else .ok (v : Int)) = .ok x := h
    by_cases hbig : 2147483647 < v
    · rw [if_pos hbig] at h2
      simp at h2
      omega
    · rw [if_neg hbig] at h2
      simp at h2
      omega

/-- Unfolding of `quotedBodyBad` on a cons cell. -/
theorem quotedBodyBad_cons (b : Nat) (rest : List Nat) :
    quotedBodyBad (b :: rest) =
      if b = 34 then false
      else if b = 92 then
        match rest with
        | [] => true
        | _ :: rest2 => quotedBodyBad rest2
      else quotedBodyBad rest := by
  cases rest <;> rfl

/-- The quoted-string scan fails exactly on the bad bodies: the closing
quote is missing or the body ends in a truncated backslash escape. -/
theorem pqsBody_none_iff : ∀ l : List Nat, pqsBody l = none ↔ quotedBodyBad l = true
  | [] => by simp [pqsBody, quotedBodyBad]
  | b :: rest => by
    rw [pqsBody_cons, quotedBodyBad_cons]
    by_cases h34 : b = 34
    · simp [h34]
    · by_cases h92 : b = 92
      · cases rest with
        | nil => simp [h34, h92]
        | cons c rest2 =>
          have ih := pqsBody_none_iff rest2
          simp [h34, h92, Option.map_eq_none', ih]
      · have ih := pqsBody_none_iff rest
        simp [h34, h92, Option.map_eq_none', ih]

/-- Bounds on the scan of a quoted body: at least the closing quote is
consumed, and never more than the remaining input. -/
theorem pqsBody_bounds : ∀ (l : List Nat) (n : Nat) (v : List Nat),
    pqsBody l = some (n, v) → 1 ≤ n ∧ n ≤ l.length
  | [], n, v => by simp [pqsBody]
  | b :: rest, n, v => by
    rw [pqsBody_cons]
    by_cases h34 : b = 34
    · simp only [if_pos h34]
      rintro h
      simp at h
      simp [← h.1]
    · by_cases h92 : b = 92
      · cases rest with
        | nil => simp [h34, h92]
        | cons c rest2 =>
          simp only [if_neg h34, if_pos h92, Option.map_eq_some']
          rintro ⟨⟨n2, v2⟩, hcall, heq⟩
          have := pqsBody_bounds rest2 n2 v2 hcall
          simp at heq
          simp [← heq.1]
          omega
      · simp only [if_neg h34, if_neg h92, Option.map_eq_some']
        rintro ⟨⟨n2, v2⟩, hcall, heq⟩
        have := pqsBody_bounds rest n2 v2 hcall
        simp at heq
        simp [← heq.1]
        omega

/-- A successful `parseQuotedString` consumes at least the two quotes and at
most the whole remaining input. -/
theorem parseQuotedString_bounds {raw : List Nat} {n : Nat} {v : List Nat}
    (h : parseQuotedString raw = some (n, v)) : 2 ≤ n ∧ n ≤ raw.length := by
  match raw with
  | [] => simp [parseQuotedString] at h
  | b :: rest =>
    by_cases h34 : b = 34
    · rw [parseQuotedString, if_pos h34, Option.map_eq_some'] at h
      rcases h with ⟨⟨n2, v2⟩, hcall, heq⟩
      have := pqsBody_bounds rest n2 v2 hcall
      simp at heq
      simp [← heq.1]
      omega
    · rw [parseQuotedString, if_neg h34] at h
      exact absurd h (by simp)

/-- One iteration of the tokenizer when the name is followed by `=` and an
unquoted value. -/
theorem parseCCLoop_step_unquoted {σ : Type} (sink : Sink σ) (fuel : Nat) (st : σ)
    (b : Nat) (nm : List Nat) (v1 : Nat) (vrest : List Nat)
    (hb1 : isWhiteSpace b = false) (hb2 : b ≠ 44)
    (hnm : ∀ c ∈ nm, isToken c = true) (hv1 : v1 ≠ 34) :
    parseCCLoop sink (fuel + 1) st (b :: (nm ++ 61 :: v1 :: vrest)) =
      (let token := goToLower (b :: nm)
       let captured := scanUnquotedValue (tokenRequireExtensionFields token) (v1 :: vrest)
       match sink.setPair st token (stripTrailingComma captured) with
       | .error e => some (.error e)
       | .ok st2 => parseCCLoop sink fuel st2 ((v1 :: vrest).drop captured.length)) := by
  have hsplit := takeWhile_append_all (p := isToken) (61 :: v1 :: vrest) hnm
    (fun c hc => by simp at hc; rw [← hc]; rfl)
  rw [parseCCLoop, if_neg (by simp [hb1, hb2])]
  simp only [hsplit.1, hsplit.2, if_neg hv1]

/-- One iteration of the tokenizer when the name is followed by `=` and a
quoted value. -/
theorem parseCCLoop_step_quoted {σ : Type} (sink : Sink σ) (fuel : Nat) (st : σ)
    (b : Nat) (nm qt : List Nat)
    (hb1 : isWhiteSpace b = false) (hb2 : b ≠ 44)
    (hnm : ∀ c ∈ nm, isToken c = true) :
    parseCCLoop sink (fuel + 1) st (b :: (nm ++ 61 :: 34 :: qt)) =
      (match parseQuotedString (34 :: qt) with
       | none => some (.error .missingClosingQuote)
       | some (eaten, value) =>
         match sink.setPair st (goToLower (b :: nm)) value with
         | .error e => some (.error e)
         | .ok st2 => parseCCLoop sink fuel st2 ((34 :: qt).drop eaten)) := by
  have hsplit := takeWhile_append_all (p := isToken) (61 :: 34 :: qt) hnm
    (fun c hc => by simp at hc; rw [← hc]; rfl)
  rw [parseCCLoop, if_neg (by simp [hb1, hb2])]
  simp only [hsplit.1, hsplit.2]
  simp

/-- One iteration of the tokenizer when the name runs to the very end of the
input: a bare-token delivery. -/
theorem parseCCLoop_step_bare_nil {σ : Type} (sink : Sink σ) (fuel : Nat) (st : σ)
    (b : Nat) (nm : List Nat)
    (hb1 : isWhiteSpace b = false) (hb2 : b ≠ 44)
    (hnm : ∀ c ∈ nm, isToken c = true) (htok : goToLower (b :: nm) ≠ [44]) :
    parseCCLoop sink (fuel + 1) st (b :: (nm ++ [])) =
      (match sink.setToken st (goToLower (b :: nm)) with
       | .error e => some (.error e)
       | .ok st2 => parseCCLoop sink fuel st2 []) := by
  have hsplit := takeWhile_append_all (p := isToken) ([] : List Nat) hnm
    (fun c hc => by simp at hc)
  rw [parseCCLoop, if_neg (by simp [hb1, hb2])]
  simp only [hsplit.1, hsplit.2, if_neg htok]

/-- One iteration of the tokenizer when the name is followed by `=` as the
final byte of the input: the pair branch is not taken and the name is
delivered bare. -/
theorem parseCCLoop_step_bare_eq {σ : Type} (sink : Sink σ) (fuel : Nat) (st : σ)
    (b : Nat) (nm : List Nat)
    (hb1 : isWhiteSpace b = false) (hb2 : b ≠ 44)
    (hnm : ∀ c ∈ nm, isToken c = true) (htok : goToLower (b :: nm) ≠ [44]) :
    parseCCLoop sink (fuel + 1) st (b :: (nm ++ [61])) =
      (match sink.setToken st (goToLower (b :: nm)) with
       | .error e => some (.error e)
       | .ok st2 => parseCCLoop sink fuel st2 [61]) := by
  have hsplit := takeWhile_append_all (p := isToken) [61] hnm
    (fun c hc => by simp at hc; rw [← hc]; rfl)
  rw [parseCCLoop, if_neg (by simp [hb1, hb2])]
  simp only [hsplit.1, hsplit.2, if_neg htok]

/-- Any property of the sink state preserved by both successful sink
operations is preserved by the whole parse. -/
theorem parseCCLoop_inv {σ : Type} (sink : Sink σ) (P : σ → Prop)
    (hTok : ∀ st t st2, P st → sink.setToken st t = .ok st2 → P st2)
    (hPair : ∀ st t v st2, P st → sink.setPair st t v = .ok st2 → P st2) :
    ∀ (fuel : Nat) (st : σ) (l : List Nat) (d : σ),
      P st → parseCCLoop sink fuel st l = some (.ok d) → P d := by
  intro fuel
  induction fuel with
  | zero => intro st l d _ h; simp [parseCCLoop] at h
  | succ n ih =>
    intro st l d hP h
    match l with
    | [] =>
      rw [parseCCLoop_nil sink st (by omega)] at h
      simp at h
      rwa [← h]
    | b :: rest =>
      rw [parseCCLoop] at h
      split at h
      · exact ih st rest d hP h
      · dsimp only at h
        split at h
        · split at h
          · split at h
            · simp at h
            · split at h
              · simp at h
              · next st2 heq => exact ih st2 _ d (hPair st _ _ st2 hP heq) h
          · split at h
            · simp at h
            · next st2 heq => exact ih st2 _ d (hPair st _ _ st2 hP heq) h
        · split at h
          · exact ih st _ d hP h
          · split at h
            · simp at h
            · next st2 heq => exact ih st2 _ d (hTok st _ st2 hP heq) h

/-- Every event recorded by a completed parse has a token-shaped name. -/
theorem parseCCLoop_record_names :
    ∀ (fuel : Nat) (st : List SinkEvent) (l : List Nat) (evs : List SinkEvent),
      parseCCLoop recordSink fuel st l = some (.ok evs) →
      ∀ e ∈ evs, e ∈ st ∨ tokenShaped e.name := by
  intro fuel
  induction fuel with
  | zero => intro st l evs h; simp [parseCCLoop] at h
  | succ n ih =>
    intro st l evs h
    match l with
    | [] =>
      rw [parseCCLoop_nil recordSink st (by omega)] at h
      simp at h
      intro e he
      rw [← h] at he
      exact Or.inl he
    | b :: rest =>
      have hgood : tokenShaped (goToLower (b :: rest.takeWhile isToken)) :=
        ⟨b, rest.takeWhile isToken, fun c hc => List.mem_takeWhile_imp hc, rfl⟩
      rw [parseCCLoop] at h
      split at h
      · exact ih st rest evs h
      · dsimp only at h
        split at h
        · split at h
          · split at h
            · simp at h
            · next eaten value hq =>
              have hstep := ih _ _ evs (by simpa [recordSink] using h)
              intro e he
              rcases hstep e he with hmem | hshape
              · rcases List.mem_append.mp hmem with hmem2 | hmem2
                · exact Or.inl hmem2
                · simp at hmem2
                  rw [hmem2]
                  exact Or.inr hgood
              · exact Or.inr hshape
          · have hstep := ih _ _ evs (by simpa [recordSink] using h)
            intro e he
            rcases hstep e he with hmem | hshape
            · rcases List.mem_append.mp hmem with hmem2 | hmem2
              · exact Or.inl hmem2
              · simp at hmem2
                rw [hmem2]
                exact Or.inr hgood
            · exact Or.inr hshape
        · split at h
          · exact ih st _ evs h
          · have hstep := ih _ _ evs (by simpa [recordSink] using h)
            intro e he
            rcases hstep e he with hmem | hshape
            · rcases List.mem_append.mp hmem with hmem2 | hmem2
              · exact Or.inl hmem2
              · simp at hmem2
                rw [hmem2]
                exact Or.inr hgood
            · exact Or.inr hshape

theorem mem_insertKey {m : List (List Nat)} {k x : List Nat} :
    x ∈ insertKey m k ↔ x ∈ m ∨ x = k := by
  rw [insertKey]
  split
  · next hk =>
    constructor
    · exact fun h => Or.inl h
    · rintro (h | rfl)
      · exact h
      · exact hk
  · simp

theorem nodup_insertKey {m : List (List Nat)} {k : List Nat} (h : m.Nodup) :
    (insertKey m k).Nodup := by
  rw [insertKey]
  split
  · exact h
  · next hk => simp [List.nodup_append, h, hk]

theorem mem_foldl_insertKey (f : List Nat → List Nat) :
    ∀ (ps : List (List Nat)) (m : List (List Nat)) (x : List Nat),
      x ∈ ps.foldl (fun acc v => insertKey acc (f v)) m ↔ x ∈ m ∨ ∃ p ∈ ps, x = f p := by
  intro ps
  induction ps with
  | nil => intro m x; simp
  | cons p t ih =>
    intro m x
    rw [List.foldl_cons, ih, mem_insertKey]
    constructor
    · rintro ((h | h) | ⟨q, hq, rfl⟩)
      · exact Or.inl h
      · exact Or.inr ⟨p, by simp, h⟩
      · exact Or.inr ⟨q, by simp [hq], rfl⟩
    · rintro (h | ⟨q, hq, rfl⟩)
      · exact Or.inl (Or.inl h)
      · rcases List.mem_cons.mp hq with rfl | hq2
        · exact Or.inl (Or.inr rfl)
        · exact Or.inr ⟨q, hq2, rfl⟩

theorem nodup_foldl_insertKey (f : List Nat → List Nat) :
    ∀ (ps : List (List Nat)) (m : List (List Nat)), m.Nodup →
      (ps.foldl (fun acc v => insertKey acc (f v)) m).Nodup := by
  intro ps
  induction ps with
  | nil => intro m h; simpa
  | cons p t ih => intro m h; exact ih _ (nodup_insertKey h)

theorem mem_insertFieldNames {m : List (List Nat)} {val x : List Nat} :
    x ∈ insertFieldNames m val ↔
      x ∈ m ∨ ∃ p ∈ splitComma val, x = canonicalHeaderKey (trimString p) := by
  rw [insertFieldNames]
  exact mem_foldl_insertKey (fun v => canonicalHeaderKey (trimString v)) (splitComma val) m x

theorem nodup_insertFieldNames {m : List (List Nat)} {val : List Nat} (h : m.Nodup) :
    (insertFieldNames m val).Nodup :=
  nodup_foldl_insertKey _ (splitComma val) m h

/-- `strings.Split` on a comma-free string yields the whole string. -/
theorem splitComma_no_comma : ∀ {v : List Nat}, (∀ c ∈ v, c ≠ 44) → splitComma v = [v]
  | [], _ => rfl
  | b :: rest, h => by
    rw [splitComma, if_neg (h b (by simp)), splitComma_no_comma (fun c hc => h c (by simp [hc]))]

/-- Trimming an all-whitespace value gives the empty string. -/
theorem trimString_all_space {v : List Nat} (h : ∀ c ∈ v, isASCIISpace c = true) :
    trimString v = [] := by
  rw [trimString, List.dropWhile_eq_nil_iff.mpr h]
  rfl

/-- Arithmetic description of the token bytes. -/
theorem isToken_iff {c : Nat} : isToken c = true ↔
    (33 ≤ c ∧ c ≤ 126 ∧ c ≠ 40 ∧ c ≠ 41 ∧ c ≠ 60 ∧ c ≠ 62 ∧ c ≠ 64 ∧ c ≠ 44 ∧ c ≠ 59 ∧
      c ≠ 58 ∧ c ≠ 92 ∧ c ≠ 34 ∧ c ≠ 47 ∧ c ≠ 91 ∧ c ≠ 93 ∧ c ≠ 63 ∧ c ≠ 61 ∧ c ≠ 123 ∧
      c ≠ 125) := by
  simp [isToken, isChar, isCtl, isSeparator]
  omega

/-- ASCII lowering keeps token bytes token bytes. -/
theorem asciiLower_isToken {c : Nat} (h : isToken c = true) : isToken (asciiLower c) = true := by
  rw [isToken_iff] at h
  rw [isToken_iff, asciiLower]
  split_ifs <;> omega

/-- Lowering a token byte followed by token bytes yields only token bytes. -/
theorem goToLower_all_token {b : Nat} {run : List Nat}
    (hb : isToken b = true) (hrun : ∀ c ∈ run, isToken c = true) :
    ∀ c ∈ goToLower (b :: run), isToken c = true := by
  have hb128 : b < 128 := by
    simp only [isToken, isChar, Bool.and_eq_true, decide_eq_true_eq] at hb
    omega
  intro c hc
  rw [goToLower, if_pos hb128] at hc
  simp at hc
  rcases hc with rfl | ⟨d, hd, rfl⟩
  · exact asciiLower_isToken hb
  · exact asciiLower_isToken (hrun d hd)

theorem isToken_not_ws {c : Nat} (h : isToken c = true) : isWhiteSpace c = false := by
  rw [isToken_iff] at h
  simp [isWhiteSpace]
  omega

theorem isToken_ne_comma {c : Nat} (h : isToken c = true) : c ≠ 44 := by
  rw [isToken_iff] at h
  omega

/-- A lowercased token-headed name is never the one-byte string ",". -/
theorem goToLower_ne_comma {b : Nat} {run : List Nat}
    (hb : isToken b = true) (hrun : ∀ c ∈ run, isToken c = true) :
    goToLower (b :: run) ≠ [44] := by
  intro hEq
  have h44 : (44 : Nat) ∈ goToLower (b :: run) := by rw [hEq]; simp
  have := goToLower_all_token hb hrun 44 h44
  simp [isToken, isSeparator] at this

theorem stripTrailingComma_of_no_comma {v : List Nat} (h : ∀ c ∈ v, c ≠ 44) :
    stripTrailingComma v = v := by
  rw [stripTrailingComma]
  split
  · next hc => exact absurd rfl (h 44 (List.mem_of_mem_getLast? hc.2))
  · rfl

/-- `takeWhile` captures at least every prefix on which the predicate
holds: maximality of the captured value. -/
theorem takeWhile_longest {α : Type} (p : α → Bool) :
    ∀ (pre l rest2 : List α), l = pre ++ rest2 → (∀ c ∈ pre, p c = true) →
      pre.length ≤ (l.takeWhile p).length := by
  intro pre
  induction pre with
  | nil => intro l rest2 _ _; simp
  | cons a t ih =>
    intro l rest2 hl hall
    subst hl
    rw [List.cons_append, List.takeWhile_cons, if_pos (hall a (by simp))]
    simpa using ih (t ++ rest2) rest2 rfl (fun c hc => hall c (by simp [hc]))

/-! ## Claims -/

/-- C2: in the request validation table, each value-requiring name
(max-age, max-stale, min-fresh) in bare-token form fails the whole parse
with its name-specific missing-delta-seconds error; each value-forbidding
name (no-cache, no-store, only-if-cached) in pair form is rejected by the
sink with its name-specific does-not-accept-value error, which fails the
whole parse; and parsing "no-cache" succeeds with NoCache set. -/
theorem claim_C2_request_validation_table :
    NewRequestCacheDirective (bytesOf "max-age") = some (.error .maxAgeDeltaSeconds) ∧
    NewRequestCacheDirective (bytesOf "max-stale") = some (.error .maxStaleDeltaSeconds) ∧
    NewRequestCacheDirective (bytesOf "min-fresh") = some (.error .minFreshDeltaSeconds) ∧
    (∀ (d : RequestCacheDirective) (v : List Nat),
      d.setPair HeaderNoCache v = .error .noCacheDirectiveValue ∧
      d.setPair HeaderNoStore v = .error .noStoreDirectiveValue ∧
      d.setPair HeaderOnlyIfCached v = .error .onlyIfCachedDirectiveValue) ∧
    NewRequestCacheDirective (bytesOf "no-cache=x") = some (.error .noCacheDirectiveValue) ∧
    NewRequestCacheDirective (bytesOf "no-store=x") = some (.error .noStoreDirectiveValue) ∧
    NewRequestCacheDirective (bytesOf "only-if-cached=x") =
      some (.error .onlyIfCachedDirectiveValue) ∧
    NewRequestCacheDirective (bytesOf "no-cache") =
      some (.ok { requestInit with NoCache := true }) := by
  refine ⟨by decide, by decide, by decide, ?_, by decide, by decide, by decide, by decide⟩
  intro d v
  refine ⟨?_, ?_, ?_⟩
  · rw [RequestCacheDirective.setPair, if_pos rfl]
  · rw [RequestCacheDirective.setPair, if_neg (by decide), if_pos rfl]
  · rw [RequestCacheDirective.setPair, if_neg (by decide), if_neg (by decide), if_pos rfl]

/-- C9: an unrecognized directive name immediately followed by `=` as the
final byte of the input parses without error into two extensions, in
order: the (lowercased) name itself, then the one-byte token "=". -/
theorem claim_C9_trailing_eq_rescanned (nm : List Nat) (h1 : nm ≠ [])
    (h2 : ∀ c ∈ nm, isToken c = true)
    (h3 : goToLower nm ∉ [HeaderMaxAge, HeaderMaxStale, HeaderMinFresh, HeaderNoCache,
      HeaderNoStore, HeaderOnlyIfCached]) :
    NewRequestCacheDirective (nm ++ [61]) =
      some (.ok { requestInit with Extensions := [goToLower nm, [61]] }) := by
  obtain ⟨b, nm2, rfl⟩ : ∃ b nm2, nm = b :: nm2 := by
    cases nm with
    | nil => exact absurd rfl h1
    | cons b nm2 => exact ⟨b, nm2, rfl⟩
  have hb : isToken b = true := h2 b (by simp)
  have hnm2 : ∀ c ∈ nm2, isToken c = true := fun c hc => h2 c (by simp [hc])
  simp only [List.mem_cons, List.not_mem_nil, or_false, not_or] at h3
  obtain ⟨hn1, hn2, hn3, hn4, hn5, hn6⟩ := h3
  have hset : requestSink.setToken requestInit (goToLower (b :: nm2)) =
      .ok { requestInit with Extensions := [goToLower (b :: nm2)] } := by
    show RequestCacheDirective.setToken requestInit (goToLower (b :: nm2)) = _
    rw [RequestCacheDirective.setToken, if_neg hn1, if_neg hn4, if_neg hn5, if_neg hn2,
      if_neg hn3, if_neg hn6]
    rfl
  have hinput : (b :: nm2) ++ [61] = b :: (nm2 ++ [61]) := by simp
  rw [NewRequestCacheDirective, hinput]
  have hlen : (b :: (nm2 ++ [61])).length + 1 = (nm2.length + 2) + 1 := by simp
  rw [hlen, parseCCLoop_step_bare_eq requestSink (nm2.length + 2) requestInit b nm2
    (isToken_not_ws hb) (isToken_ne_comma hb) hnm2 (goToLower_ne_comma hb hnm2), hset]
  show parseCCLoop requestSink ((nm2.length + 1) + 1)
    { requestInit with Extensions := [goToLower (b :: nm2)] } [61] = _
  have hstep2 := parseCCLoop_step_bare_nil requestSink (nm2.length + 1)
    { requestInit with Extensions := [goToLower (b :: nm2)] } 61 []
    (by decide) (by decide) (by simp) (by decide)
  simp only [List.nil_append] at hstep2
  rw [hstep2]
  have hset2 : requestSink.setToken { requestInit with Extensions := [goToLower (b :: nm2)] }
      (goToLower [61]) =
      .ok { requestInit with Extensions := [goToLower (b :: nm2), [61]] } := by
    rw [requestSink_setToken, RequestCacheDirective.setToken, if_neg (by decide),
      if_neg (by decide), if_neg (by decide), if_neg (by decide), if_neg (by decide),
      if_neg (by decide)]
    rfl
  rw [hset2]
  show parseCCLoop requestSink (nm2.length + 1)
    { requestInit with Extensions := [goToLower (b :: nm2), [61]] } [] = _
  rw [parseCCLoop_nil requestSink _ (by omega)]

/-- C10: a pair-form no-cache or private whose value is empty or all
whitespace still makes the field-name map non-nil and inserts the empty
string as a key; end-to-end, the empty quoted value does exactly that. -/
theorem claim_C10_empty_value_inserts_empty_key :
    (∀ (d : ResponseCacheDirective) (v : List Nat), (∀ c ∈ v, isASCIISpace c = true) →
      ∃ m, d.setPair HeaderNoCache v =
          .ok { d with NoCachePresent := true, NoCache := some m } ∧ [] ∈ m) ∧
    (∀ (d : ResponseCacheDirective) (v : List Nat), (∀ c ∈ v, isASCIISpace c = true) →
      ∃ m, d.setPair HeaderPrivate v =
          .ok { d with PrivatePresent := true, Private := some m } ∧ [] ∈ m) ∧
    NewResponseCacheDirective (bytesOf "no-cache=\"\"") =
      some (.ok { responseInit with NoCachePresent := true, NoCache := some [[]] }) ∧
    NewResponseCacheDirective (bytesOf "private=\"\"") =
      some (.ok { responseInit with PrivatePresent := true, Private := some [[]] }) := by
  have hkey : ∀ v : List Nat, (∀ c ∈ v, isASCIISpace c = true) →
      ∀ m : List (List Nat), [] ∈ insertFieldNames m v := by
    intro v hv m
    rw [mem_insertFieldNames]
    refine Or.inr ⟨v, ?_, ?_⟩
    · rw [splitComma_no_comma (fun c hc => by have := hv c hc; simp [isASCIISpace] at this; omega)]
      simp
    · rw [trimString_all_space hv]
      rfl
  refine ⟨?_, ?_, by decide, by decide⟩
  · intro d v hv
    refine ⟨insertFieldNames (d.NoCache.getD []) v, ?_, hkey v hv _⟩
    rw [ResponseCacheDirective.setPair, if_neg (by decide), if_neg (by decide),
      if_neg (by decide), if_neg (by decide), if_neg (by decide), if_neg (by decide),
      if_pos rfl]
  · intro d v hv
    refine ⟨insertFieldNames (d.Private.getD []) v, ?_, hkey v hv _⟩
    rw [ResponseCacheDirective.setPair, if_neg (by decide), if_neg (by decide),
      if_neg (by decide), if_neg (by decide), if_neg (by decide), if_neg (by decide),
      if_neg (by decide), if_pos rfl]

/-- C1: parsing "max-age=" plus a nonempty decimal digit string n with the
request parser succeeds and yields MaxAge equal to the numeric value of n
when it is at most 2147483647, and exactly 2147483647 otherwise — saturation
rather than an error, including digit strings beyond the 64-bit range. -/
theorem claim_C1_maxAge_value_saturation (n : List Nat) (h1 : n ≠ [])
    (h2 : ∀ c ∈ n, 48 ≤ c ∧ c ≤ 57) :
    NewRequestCacheDirective (bytesOf "max-age=" ++ n) =
      some (.ok { requestInit with
        MaxAge := ((min (decValue n) 2147483647 : Nat) : Int) }) := by
  obtain ⟨d, ds, rfl⟩ : ∃ d ds, n = d :: ds := by
    cases n with
    | nil => exact absurd rfl h1
    | cons d ds => exact ⟨d, ds, rfl⟩
  have hd : 48 ≤ d ∧ d ≤ 57 := h2 d (by simp)
  have hinput : bytesOf "max-age=" ++ (d :: ds) =
      109 :: ([97, 120, 45, 97, 103, 101] ++ 61 :: d :: ds) := rfl
  rw [NewRequestCacheDirective, hinput]
  rw [parseCCLoop_step_unquoted requestSink _ requestInit 109 [97, 120, 45, 97, 103, 101]
    d ds (by decide) (by decide) (by decide) (by omega)]
  dsimp only
  have htok : goToLower (109 :: [97, 120, 45, 97, 103, 101]) = HeaderMaxAge := by decide
  rw [htok]
  have hreq : tokenRequireExtensionFields HeaderMaxAge = false := by decide
  rw [hreq]
  have hscan : scanUnquotedValue false (d :: ds) = d :: ds := by
    rw [scanUnquotedValue]
    apply List.takeWhile_eq_self_iff.mpr
    intro c hc
    have := h2 c hc
    simp [isValueEnd, isWhiteSpace]
    omega
  rw [hscan, stripTrailingComma_of_no_comma (fun c hc => by have := h2 c hc; omega)]
  have hpair : requestSink.setPair requestInit HeaderMaxAge (d :: ds) =
      .ok { requestInit with
        MaxAge := ((min (decValue (d :: ds)) 2147483647 : Nat) : Int) } := by
    rw [requestSink_setPair, RequestCacheDirective.setPair, if_neg (by decide),
      if_neg (by decide), if_neg (by decide), if_pos rfl,
      validateDeltaSeconds_digits (d :: ds) (by simp) h2]
  rw [hpair]
  show parseCCLoop requestSink (109 :: ([97, 120, 45, 97, 103, 101] ++ 61 :: d :: ds)).length
    { requestInit with MaxAge := ((min (decValue (d :: ds)) 2147483647 : Nat) : Int) }
    ((d :: ds).drop (d :: ds).length) = _
  rw [List.drop_length, parseCCLoop_nil requestSink _ (by simp)]

/-- C3: an input whose quoted value is unterminated or ends in a truncated
backslash escape makes both parse functions return the missing-closing-quote
error; the `Except` result carries the error and no directive record. -/
theorem claim_C3_unterminated_quote_aborts (nm qt : List Nat) (h1 : nm ≠ [])
    (h2 : ∀ c ∈ nm, isToken c = true) (hbad : quotedBodyBad qt = true) :
    NewRequestCacheDirective (nm ++ 61 :: 34 :: qt) =
      some (.error .missingClosingQuote) ∧
    NewResponseCacheDirective (nm ++ 61 :: 34 :: qt) =
      some (.error .missingClosingQuote) := by
  obtain ⟨b, nm2, rfl⟩ : ∃ b nm2, nm = b :: nm2 := by
    cases nm with
    | nil => exact absurd rfl h1
    | cons b nm2 => exact ⟨b, nm2, rfl⟩
  have hb : isToken b = true := h2 b (by simp)
  have hnm2 : ∀ c ∈ nm2, isToken c = true := fun c hc => h2 c (by simp [hc])
  have hq : parseQuotedString (34 :: qt) = none := by
    simp [parseQuotedString, (pqsBody_none_iff qt).mpr hbad]
  have hinput : (b :: nm2) ++ 61 :: 34 :: qt = b :: (nm2 ++ 61 :: 34 :: qt) := by simp
  constructor
  · rw [NewRequestCacheDirective, hinput]
    rw [parseCCLoop_step_quoted requestSink _ requestInit b nm2 qt
      (isToken_not_ws hb) (isToken_ne_comma hb) hnm2, hq]
  · rw [NewResponseCacheDirective, hinput]
    rw [parseCCLoop_step_quoted responseSink _ responseInit b nm2 qt
      (isToken_not_ws hb) (isToken_ne_comma hb) hnm2, hq]

/-- C4: response no-cache and private are dual-mode. The bare-token form
sets only the presence boolean; the pair form sets the presence boolean,
makes the field map non-nil, and its key set is the old set plus the
comma-split, whitespace-trimmed, canonicalized pieces of the value, with
duplicates collapsed (no-duplicate key lists stay duplicate-free);
end-to-end on the spec examples. -/
theorem claim_C4_response_dual_mode :
    (∀ d : ResponseCacheDirective,
      d.setToken HeaderNoCache = .ok { d with NoCachePresent := true } ∧
      d.setToken HeaderPrivate = .ok { d with PrivatePresent := true }) ∧
    (∀ (d : ResponseCacheDirective) (v : List Nat),
      ∃ m, d.setPair HeaderNoCache v =
          .ok { d with NoCachePresent := true, NoCache := some m } ∧
        (∀ k, k ∈ m ↔ k ∈ d.NoCache.getD [] ∨
          ∃ p ∈ splitComma v, k = canonicalHeaderKey (trimString p)) ∧
        ((d.NoCache.getD []).Nodup → m.Nodup)) ∧
    (∀ (d : ResponseCacheDirective) (v : List Nat),
      ∃ m, d.setPair HeaderPrivate v =
          .ok { d with PrivatePresent := true, Private := some m } ∧
        (∀ k, k ∈ m ↔ k ∈ d.Private.getD [] ∨
          ∃ p ∈ splitComma v, k = canonicalHeaderKey (trimString p)) ∧
        ((d.Private.getD []).Nodup → m.Nodup)) ∧
    NewResponseCacheDirective (bytesOf "private=\"X-Foo, X-Bar\"") =
      some (.ok { responseInit with
        PrivatePresent := true, Private := some [bytesOf "X-Foo", bytesOf "X-Bar"] }) ∧
    NewResponseCacheDirective (bytesOf "private") =
      some (.ok { responseInit with PrivatePresent := true }) := by
  refine ⟨?_, ?_, ?_, by decide, by decide⟩
  · intro d
    constructor
    · rw [ResponseCacheDirective.setToken, if_neg (by decide), if_neg (by decide),
        if_neg (by decide), if_neg (by decide), if_neg (by decide), if_neg (by decide),
        if_neg (by decide), if_neg (by decide), if_neg (by decide), if_neg (by decide),
        if_pos rfl]
    · rw [ResponseCacheDirective.setToken, if_neg (by decide), if_neg (by decide),
        if_neg (by decide), if_neg (by decide), if_neg (by decide), if_neg (by decide),
        if_neg (by decide), if_neg (by decide), if_pos rfl]
  · intro d v
    refine ⟨insertFieldNames (d.NoCache.getD []) v, ?_, fun k => mem_insertFieldNames,
      fun h => nodup_insertFieldNames h⟩
    rw [ResponseCacheDirective.setPair, if_neg (by decide), if_neg (by decide),
      if_neg (by decide), if_neg (by decide), if_neg (by decide), if_neg (by decide),
      if_pos rfl]
  · intro d v
    refine ⟨insertFieldNames (d.Private.getD []) v, ?_, fun k => mem_insertFieldNames,
      fun h => nodup_insertFieldNames h⟩
    rw [ResponseCacheDirective.setPair, if_neg (by decide), if_neg (by decide),
      if_neg (by decide), if_neg (by decide), if_neg (by decide), if_neg (by decide),
      if_neg (by decide), if_pos rfl]

/-- C5: when scanning an unquoted value the tokenizer stops at whitespace
always, stops at a comma only when the directive name is not one of
no-cache / private, and strips exactly one trailing comma from the captured
value before delivering the pair to the sink. -/
theorem claim_C5_unquoted_value_scan (st : List SinkEvent) (f : Nat) (b : Nat)
    (nm : List Nat) (v1 : Nat) (vrest : List Nat) (req : Bool)
    (v p rest2 w t : List Nat)
    (hb : isToken b = true) (hnm : ∀ c ∈ nm, isToken c = true) (hv1 : v1 ≠ 34)
    (hsplit : v = p ++ rest2) (hpfree : ∀ c ∈ p, isValueEnd req c = false)
    (hw : ∀ c, w.getLast? = some c → c ≠ 44) :
    parseCCLoop recordSink (f + 1) st (b :: (nm ++ 61 :: v1 :: vrest)) =
      parseCCLoop recordSink f
        (st ++ [SinkEvent.pair (goToLower (b :: nm))
          (stripTrailingComma (scanUnquotedValue
            (tokenRequireExtensionFields (goToLower (b :: nm))) (v1 :: vrest)))])
        ((v1 :: vrest).drop (scanUnquotedValue
          (tokenRequireExtensionFields (goToLower (b :: nm))) (v1 :: vrest)).length) ∧
    (∀ c ∈ scanUnquotedValue req v, isWhiteSpace c = false ∧ (req = false → c ≠ 44)) ∧
    p.length ≤ (scanUnquotedValue req v).length ∧
    scanUnquotedValue true v = v.takeWhile (fun c => !isWhiteSpace c) ∧
    (tokenRequireExtensionFields t = true ↔ (t = HeaderNoCache ∨ t = HeaderPrivate)) ∧
    stripTrailingComma (w ++ [44]) = w ∧ stripTrailingComma w = w := by
  refine ⟨?_, ?_, ?_, ?_, ?_, ?_, ?_⟩
  · rw [parseCCLoop_step_unquoted recordSink f st b nm v1 vrest
      (isToken_not_ws hb) (isToken_ne_comma hb) hnm hv1]
    rfl
  · intro c hc
    rw [scanUnquotedValue] at hc
    have h3 := List.mem_takeWhile_imp hc
    cases req <;> simp [isValueEnd, isWhiteSpace] at h3 <;>
      simp [isWhiteSpace] <;> omega
  · rw [scanUnquotedValue]
    exact takeWhile_longest _ p v rest2 hsplit
      (fun c hc => by simp [hpfree c hc])
  · rw [scanUnquotedValue]
    congr 1
    funext c
    simp [isValueEnd]
  · simp [tokenRequireExtensionFields]
  · rw [stripTrailingComma, if_pos ⟨by simp, List.getLast?_concat w⟩]
    exact List.dropLast_concat
  · rw [stripTrailingComma]
    split
    · next hc => exact absurd rfl (hw 44 hc.2)
    · rfl

/-- C5 witness: for the unrecognized name foo the unquoted value scan of
"a,b" stops at the comma, and the pair (foo, a) is delivered to the sink
before the scan resumes at the comma. -/
theorem claim_C5_witness :
    parseCCLoop recordSink 8 [] (bytesOf "foo=a,b") =
      parseCCLoop recordSink 7 [SinkEvent.pair (bytesOf "foo") [97]] (bytesOf ",b") := by
  have h := (claim_C5_unquoted_value_scan [] 7 102 [111, 111] 97 (bytesOf ",b") false
    (bytesOf "a,b") [97] (bytesOf ",b") (bytesOf "x") HeaderPrivate
    (by decide) (by decide) (by decide) (by decide) (by decide)
    (fun c hc => by simp [bytesOf] at hc; omega)).1
  exact h

/-- C6 counterexample: on the input ";" the tokenizer delivers the one-byte
name ";" to the sink (it lands in Extensions), yet 59 is not a token byte —
so a delivered directive name can contain a non-token byte, refuting the
claim as stated. -/
theorem claim_C6_counterexample :
    parseCCLoop recordSink 2 [] [59] = some (.ok [.tok [59]]) ∧
    NewRequestCacheDirective [59] =
      some (.ok { requestInit with Extensions := [[59]] }) ∧
    isToken 59 = false := by decide

/-- C6 (amended): every directive name delivered to the sink by a completed
parse is the lowercasing of the byte at the scan position followed by a run
of token bytes; when that first byte is itself a token byte — the only case
the original claim contemplated — the delivered name consists solely of
token bytes. -/
theorem claim_C6_amended_delivered_names (l : List Nat) (evs : List SinkEvent)
    (h : parseCCLoop recordSink (l.length + 1) [] l = some (.ok evs)) :
    ∀ e ∈ evs, ∃ b run, (∀ c ∈ run, isToken c = true) ∧ e.name = goToLower (b :: run) ∧
      (isToken b = true → ∀ c ∈ e.name, isToken c = true) := by
  intro e he
  rcases parseCCLoop_record_names _ [] l evs h e he with hmem | ⟨b, run, hrun, hname⟩
  · simp at hmem
  · refine ⟨b, run, hrun, hname, fun hb => ?_⟩
    rw [hname]
    exact goToLower_all_token hb hrun

/-- C6 amended witness, on the delivered name of the input "no-store". -/
theorem claim_C6_amended_witness :
    ∃ b run, (∀ c ∈ run, isToken c = true) ∧
      (SinkEvent.tok (bytesOf "no-store")).name = goToLower (b :: run) ∧
      (isToken b = true →
        ∀ c ∈ (SinkEvent.tok (bytesOf "no-store")).name, isToken c = true) :=
  claim_C6_amended_delivered_names (bytesOf "no-store") [.tok (bytesOf "no-store")]
    (by decide) (.tok (bytesOf "no-store")) (by simp)

/-- C7: in every request record returned without error, each of MaxAge,
MaxStale and MinFresh is the absent sentinel -1 or lies in [0, 2147483647]. -/
theorem claim_C7_request_age_invariant (l : List Nat) (d : RequestCacheDirective)
    (h : NewRequestCacheDirective l = some (.ok d)) : requestAgeInv d := by
  apply parseCCLoop_inv requestSink requestAgeInv ?_ ?_ (l.length + 1) requestInit l d
    (by simp [requestAgeInv, requestInit]) h
  · intro st t st2 hP hset
    rw [requestSink_setToken, RequestCacheDirective.setToken] at hset
    split_ifs at hset <;> simp at hset <;> rw [← hset] <;> exact hP
  · intro st t v st2 hP hset
    rw [requestSink_setPair, RequestCacheDirective.setPair] at hset
    split_ifs at hset
    · rcases hval : validateDeltaSeconds v with e | x <;> rw [hval] at hset <;> simp at hset
      rw [← hset]
      exact ⟨Or.inr (validateDeltaSeconds_ok_range hval), hP.2.1, hP.2.2⟩
    · rcases hval : validateDeltaSeconds v with e | x <;> rw [hval] at hset <;> simp at hset
      rw [← hset]
      exact ⟨hP.1, Or.inr (validateDeltaSeconds_ok_range hval), hP.2.2⟩
    · rcases hval : validateDeltaSeconds v with e | x <;> rw [hval] at hset <;> simp at hset
      rw [← hset]
      exact ⟨hP.1, hP.2.1, Or.inr (validateDeltaSeconds_ok_range hval)⟩
    · simp at hset
      rw [← hset]
      exact hP

/-- C7 witness at the input "max-age=60". -/
theorem claim_C7_witness : requestAgeInv { requestInit with MaxAge := 60 } :=
  claim_C7_request_age_invariant (bytesOf "max-age=60")
    { requestInit with MaxAge := 60 } (by decide)

/-- C8: both parse functions terminate within fuel `length + 1` — the scan
position strictly advances every iteration — and a successful quoted-string
sub-scan consumes at least the two quotes and at most the given suffix. -/
theorem claim_C8_termination :
    (∀ l : List Nat, (NewRequestCacheDirective l).isSome ∧
      (NewResponseCacheDirective l).isSome) ∧
    (∀ (raw : List Nat) (n : Nat) (v : List Nat),
      parseQuotedString raw = some (n, v) → 2 ≤ n ∧ n ≤ raw.length) := by
  refine ⟨fun l => ⟨?_, ?_⟩, fun raw n v h => parseQuotedString_bounds h⟩
  · exact parseCCLoop_isSome requestSink (l.length + 1) requestInit l (by omega)
  · exact parseCCLoop_isSome responseSink (l.length + 1) responseInit l (by omega)

/-- C8 witness: the bound applied to the quoted string "x". -/
theorem claim_C8_witness : 2 ≤ 3 ∧ 3 ≤ (bytesOf "\"x\"").length :=
  claim_C8_termination.2 (bytesOf "\"x\"") 3 [120] (by decide)

/-- C1 witness: a digit string beyond the 64-bit range saturates. -/
theorem claim_C1_witness :
    NewRequestCacheDirective (bytesOf "max-age=99999999999999999999") =
      some (.ok { requestInit with MaxAge := 2147483647 }) := by
  have h := claim_C1_maxAge_value_saturation (bytesOf "99999999999999999999")
    (by decide) (by decide)
  exact h

/-- C3 witness: the spec example private="abc with no closing quote. -/
theorem claim_C3_witness :
    NewResponseCacheDirective (bytesOf "private=\"abc") =
      some (.error .missingClosingQuote) :=
  (claim_C3_unterminated_quote_aborts (bytesOf "private") (bytesOf "abc")
    (by decide) (by decide) (by decide)).2

/-- C9 witness: the input "foo=". -/
theorem claim_C9_witness :
    NewRequestCacheDirective (bytesOf "foo=") =
      some (.ok { requestInit with Extensions := [bytesOf "foo", [61]] }) := by
  have h := claim_C9_trailing_eq_rescanned (bytesOf "foo") (by decide) (by decide) (by decide)
  exact h

/-- C10 witness: a single-space value still inserts the empty key. -/
theorem claim_C10_witness :
    ∃ m, ResponseCacheDirective.setPair responseInit HeaderNoCache [32] =
        .ok { responseInit with NoCachePresent := true, NoCache := some m } ∧ [] ∈ m :=
  claim_C10_empty_value_inserts_empty_key.1 responseInit [32] (by decide)

end CacheControl
